import Mathlib

/-!
Verification of the N-of-M threshold ranked-retrieval evaluator
(`in3120/simplesearchengine.py`) and the TF-IDF ranker protocol
(`in3120/betterranker.py`).

The embedding models:
* `Posting` — the (document_id, term_frequency) record;
* `Ranker` — the abstract reset/update/evaluate scoring interface, with a
  generic score type `β` (Python uses floats; scores are only produced,
  compared and sorted, so any linear order is faithful);
* `Cursor` — one entry of the parallel `postings_map` / `postings_iterators`
  arrays of `SimpleSearchEngine.evaluate`, together with the term and its
  query multiplicity (`terms_count[term]`);
* `evalLoopF` / `evalLoop` — the `while any(postings_map)` merge loop,
  written with an explicit fuel bound (`size cs + 1` always suffices, see
  `evalLoopF_congr` and `size_advance_lt`) so that the definition is
  structurally recursive and executable;
* `SimpleSearchEngine.evaluate` — the whole entry point: term
  deduplication, N computation, merge, sieve, winners;
* `REvent` and `parseAux` — the observable ranker call trace and a checker
  for the per-candidate reset/update*/evaluate protocol;
* `BRState`, `BetterRanker.update` etc. — the stateful TF-IDF ranker, with
  the floating-point quantities (idf values, static scores) abstracted as
  rational-valued parameters; its `assert` is modelled as an `Option`.
-/

/-- Query terms are normalized string tokens. -/
abbrev Term := String

/-- One term's occurrence record in one document: the pair
(document_id, term_frequency) produced by the inverted index. -/
structure Posting where
  document_id : ℕ
  term_frequency : ℕ
deriving DecidableEq

/-- The abstract ranker interface driven by the evaluator: `reset` starts a
new document, `update` folds in one matching term, `evaluate` reads the
score.  `σ` is the ranker's private state, `β` its score type. -/
structure Ranker (σ : Type) (β : Type) where
  reset : σ → ℕ → σ
  update : σ → Term → ℕ → Posting → σ
  evaluate : σ → β

/-- One observable call made to the ranker by the evaluator. -/
inductive REvent where
  | reset (document_id : ℕ)
  | update (term : Term) (multiplicity : ℕ) (posting : Posting)
  | evaluate
deriving DecidableEq

/-- One per-term cursor of the merge: the term, its multiplicity in the raw
query (`terms_count[term]`), the current posting (`postings_map[i]`, `none`
meaning exhausted) and the not-yet-delivered remainder of the term's
posting iterator. -/
structure Cursor where
  term : Term
  mult : ℕ
  current : Option Posting
  rest : List Posting
deriving DecidableEq

/-- The postings a cursor has not yet consumed. -/
def pending (c : Cursor) : List Posting :=
  c.current.toList ++ c.rest

/-- Number of unconsumed postings of one cursor. -/
def csize (c : Cursor) : ℕ :=
  (pending c).length

/-- Total number of unconsumed postings across all cursors; the merge
loop's termination measure. -/
def size (cs : List Cursor) : ℕ :=
  (cs.map csize).sum

/-- The document ids at which the live (non-exhausted) cursors currently
stand; `while any(postings_map)` tests this list for nonemptiness. -/
def liveIds (cs : List Cursor) : List ℕ :=
  cs.filterMap fun c => c.current.map Posting.document_id

/-- Minimum of a list of naturals, `none` on the empty list; models
`min(posting.document_id for posting in postings_map if posting)`. -/
def minNat? : List ℕ → Option ℕ
  | [] => none
  | a :: l => some (match minNat? l with | none => a | some b => min a b)

/-- If the cursor currently stands at document `d`, the (term,
multiplicity, posting) triple it contributes to that candidate. -/
def matchAt (d : ℕ) (c : Cursor) : Option (Term × ℕ × Posting) :=
  match c.current with
  | some p => if p.document_id = d then some (c.term, c.mult, p) else none
  | none => none

/-- The contributions of all cursors standing at document `d`, in cursor
(i.e. first-occurrence term) order; its length is `doc_match_count`. -/
def matchesAt (d : ℕ) (cs : List Cursor) : List (Term × ℕ × Posting) :=
  cs.filterMap (matchAt d)

/-- Cursor advancement at the end of one merge iteration: exactly the
cursors standing at the current minimum `d` move to their next posting
(or become exhausted); all others are untouched. -/
def advance (d : ℕ) (c : Cursor) : Cursor :=
  match c.current with
  | some p =>
      if p.document_id = d then
        { c with current := c.rest.head?, rest := c.rest.tail }
      else c
  | none => c

/-- The ranker calls issued for one candidate document `d`:
`reset(doc_id)`, then one `update(term, terms_count[term], posting)` per
matching cursor in term order. -/
def driveRanker (R : Ranker σ β) (r : σ) (d : ℕ)
    (ms : List (Term × ℕ × Posting)) : σ :=
  ms.foldl (fun s u => R.update s u.1 u.2.1 u.2.2) (R.reset r d)

/-- The `while any(postings_map)` merge loop of
`SimpleSearchEngine.evaluate`, with an explicit fuel argument to make the
recursion structural.  Returns the ranker call trace and the `results`
list of (score, doc_id) pairs, in emission order. -/
def evalLoopF (R : Ranker σ β) (n : ℤ) :
    ℕ → σ → List Cursor → List REvent × List (β × ℕ)
  | 0, _, _ => ([], [])
  | fuel + 1, r, cs =>
    match minNat? (liveIds cs) with
    | none => ([], [])
    | some d =>
      let ms := matchesAt d cs
      if n ≤ (ms.length : ℤ) then
        let r2 := driveRanker R r d ms
        let out := evalLoopF R n fuel r2 (cs.map (advance d))
        (REvent.reset d ::
            ((ms.map fun u => REvent.update u.1 u.2.1 u.2.2) ++
              REvent.evaluate :: out.1),
          (R.evaluate r2, d) :: out.2)
      else
        evalLoopF R n fuel r (cs.map (advance d))

/-- The merge loop with enough fuel to run to completion. -/
def evalLoop (R : Ranker σ β) (n : ℤ) (r : σ) (cs : List Cursor) :
    List REvent × List (β × ℕ) :=
  evalLoopF R n (size cs + 1) r cs

/-- Python's `int()` applied to a rational: truncation toward zero. -/
def intTrunc (q : ℚ) : ℤ :=
  if q < 0 then ⌈q⌉ else ⌊q⌋

/-- The match threshold `n = max(1, min(m, int(threshold * m)))` computed
once per query by `SimpleSearchEngine.evaluate`. -/
def computeN (threshold : ℚ) (m : ℕ) : ℤ :=
  max 1 (min (m : ℤ) (intTrunc (threshold * m)))

/-- First-occurrence-order deduplication of the query's term occurrences:
`list(Counter(tokens).keys())` (Python dicts preserve insertion order). -/
def firstDedup : List Term → List Term
  | [] => []
  | t :: ts => t :: (firstDedup ts).filter (· ≠ t)

/-- The initial cursor for one unique term: the term, its multiplicity in
the query, and its posting stream primed on the first posting
(`next(posting, None)`). -/
def initCursor (tokens : List Term) (index : Term → List Posting)
    (t : Term) : Cursor :=
  { term := t, mult := tokens.count t,
    current := (index t).head?, rest := (index t).tail }

/-- Modelled from the spec: stable descending insertion into the bounded
top-K selector's retained list.  The repository's `Sieve` class (file
`sieve.py`, imported by the engine but not present under `src/`) is
specified as a fixed-capacity top-K selector; ties are kept stably in
first-seen order, a policy the spec leaves to the implementation. -/
def insertDesc [LinearOrder β] :
    List (β × ℕ) → (β × ℕ) → List (β × ℕ)
  | [], e => [e]
  | x :: xs, e => if e.1 ≤ x.1 then x :: insertDesc xs e else e :: x :: xs

/-- Modelled from the spec: `Sieve.sift(score, doc_id)` — offer one
(score, doc_id) pair to the selector of capacity `cap`, retaining only the
`cap` best entries. -/
def sift [LinearOrder β] (cap : ℕ) (st : List (β × ℕ)) (e : β × ℕ) :
    List (β × ℕ) :=
  (insertDesc st e).take cap

/-- Everything `SimpleSearchEngine.evaluate` produces: the ranker call
trace, the internal `results` list holding every scored candidate, and the
final top-K sequence yielded via `sieve.winners()` (document ids, to be
resolved through the corpus). -/
structure EvalOutput (β : Type) where
  trace : List REvent
  results : List (β × ℕ)
  winners : List (β × ℕ)
deriving DecidableEq

/-- The body of `SimpleSearchEngine.evaluate` after `n` has been fixed:
prime the cursors, run the merge, then sift every scored candidate through
a sieve of capacity `max(1, min(100, hit_count))` and drain it. -/
def evalCore [LinearOrder β] (R : Ranker σ β) (r : σ) (tokens : List Term)
    (index : Term → List Posting) (n : ℤ) (hit_count : ℤ) : EvalOutput β :=
  let terms := firstDedup tokens
  let cursors := terms.map (initCursor tokens index)
  let out := evalLoop R n r cursors
  let cap := (max 1 (min 100 hit_count)).toNat
  ⟨out.1, out.2, out.2.foldl (sift cap) []⟩

/-- `SimpleSearchEngine.evaluate`: the query is already tokenized
(`tokens` stands for `self.__inverted_index.get_terms(query)`), the
inverted index is the function `index` from a term to its sorted posting
list, and the two options are `threshold` (`match_threshold`) and
`hit_count`. -/
def SimpleSearchEngine.evaluate [LinearOrder β] (R : Ranker σ β) (r : σ)
    (tokens : List Term) (index : Term → List Posting)
    (threshold : ℚ) (hit_count : ℤ) : EvalOutput β :=
  evalCore R r tokens index (computeN threshold (firstDedup tokens).length)
    hit_count

/-- Parser for the ranker call trace, enforcing the per-candidate
protocol: each block is exactly one `reset d`, then updates whose posting
carries document id `d`, then exactly one `evaluate`; returns the parsed
blocks or `none` on any violation. -/
def parseAux : Option (ℕ × List (Term × ℕ × Posting)) → List REvent →
    Option (List (ℕ × List (Term × ℕ × Posting)))
  | none, [] => some []
  | none, REvent.reset d :: tr => parseAux (some (d, [])) tr
  | none, _ => none
  | some _, [] => none
  | some (d, us), REvent.update t k p :: tr =>
      if p.document_id = d then parseAux (some (d, us ++ [(t, k, p)])) tr
      else none
  | some (d, us), REvent.evaluate :: tr =>
      (parseAux none tr).map fun bs => (d, us) :: bs
  | some _, REvent.reset _ :: _ => none

/-- The mutable state of `BetterRanker`: the accumulated score and the
document id set by the last `reset` (`None` before any reset).  The score
is kept as a rational; the floating-point idf values are abstracted as a
parameter below. -/
structure BRState where
  score : ℚ
  document_id : Option ℕ
deriving DecidableEq

/-- `BetterRanker.reset`: zero the score and remember the document id. -/
def BetterRanker.reset (_s : BRState) (d : ℕ) : BRState :=
  ⟨0, some d⟩

/-- `BetterRanker.update`: asserts that the posting belongs to the
document of the last `reset`, then adds `term_frequency * idf(term)` to
the score.  `idf t` abstracts `log(len(corpus) / document_frequency(t))`;
the assertion failure is modelled as `none`.  Note the multiplicity
argument is ignored, as in the source. -/
def BetterRanker.update (idf : Term → ℚ) (s : BRState) (t : Term)
    (_mult : ℕ) (p : Posting) : Option BRState :=
  if s.document_id = some p.document_id then
    some ⟨s.score + (p.term_frequency : ℚ) * idf t, s.document_id⟩
  else
    none

/-- `BetterRanker.evaluate`: the accumulated TF-IDF score plus the
statically weighted document quality score; `staticScore d` abstracts
`corpus.get_document(d).get_field("static_quality_score", 0.0)`. -/
def BetterRanker.evaluate (staticScore : ℕ → ℚ) (s : BRState) : ℚ :=
  s.score + 1 * (match s.document_id with
    | some d => staticScore d
    | none => 0)

/-- Replay a ranker call trace against `BetterRanker`, starting from a
given state; `none` as soon as the assertion in `update` fails. -/
def runBetter (idf : Term → ℚ) : BRState → List REvent → Option BRState
  | s, [] => some s
  | _, REvent.reset d :: tr => runBetter idf ⟨0, some d⟩ tr
  | s, REvent.update t k p :: tr =>
      match BetterRanker.update idf s t k p with
      | none => none
      | some s2 => runBetter idf s2 tr
  | s, REvent.evaluate :: tr => runBetter idf s tr

/-- A concrete ranker over natural-number scores, counting the matching
terms; used to exercise the evaluator on concrete inputs. -/
def countRanker : Ranker ℕ ℕ :=
  ⟨fun _ _ => 0, fun s _ _ _ => s + 1, fun s => s⟩

/-- The three-term example index of the spec's concrete scenarios:
a ↦ [1, 3, 5], b ↦ [2, 3, 6], c ↦ [3, 4] (all term frequencies 1). -/
def idx3 : Term → List Posting := fun t =>
  if t = "a" then [⟨1, 1⟩, ⟨3, 1⟩, ⟨5, 1⟩]
  else if t = "b" then [⟨2, 1⟩, ⟨3, 1⟩, ⟨6, 1⟩]
  else if t = "c" then [⟨3, 1⟩, ⟨4, 1⟩]
  else []

/-- The query tokens of the spec's concrete scenarios. -/
def tok3 : List Term := ["a", "b", "c"]

/-! ### Document membership counting across cursors -/

/-- Whether document `d` still occurs among the cursor's unconsumed
postings. -/
def hasDoc (c : Cursor) (d : ℕ) : Bool :=
  (pending c).any fun p => p.document_id == d

/-- In how many of the cursors' unconsumed posting streams document `d`
still occurs. -/
def countIn (cs : List Cursor) (d : ℕ) : ℕ :=
  (cs.filter fun c => hasDoc c d).length

/-- The cursor's unconsumed postings are strictly increasing by document
id: the index produces sorted streams with unique document ids. -/
def SortedCursor (c : Cursor) : Prop :=
  ((pending c).map Posting.document_id).Pairwise (· < ·)

/-- An exhausted cursor has no postings left behind it; true of every
state the Python evaluator can reach, since `next(iterator, None)` only
returns `None` once the iterator is empty. -/
def OkCursor (c : Cursor) : Prop :=
  c.current = none → c.rest = []

/-- Strict sortedness of a cursor is a decidable check. -/
instance (c : Cursor) : Decidable (SortedCursor c) := by
  unfold SortedCursor
  infer_instance

/-- The exhausted-cursor invariant is a decidable check. -/
instance (c : Cursor) : Decidable (OkCursor c) := by
  unfold OkCursor
  infer_instance

/-! ### Basic lemmas about the minimum and the cursors -/

theorem minNat?_eq_none {l : List ℕ} : minNat? l = none ↔ l = [] := by
  cases l <;> simp [minNat?]

theorem minNat?_mem {l : List ℕ} {d : ℕ} (h : minNat? l = some d) : d ∈ l := by
  induction l with
  | nil => simp [minNat?] at h
  | cons a t ih =>
    cases ht : minNat? t with
    | none =>
      simp only [minNat?, ht, Option.some.injEq] at h
      subst h
      exact List.mem_cons_self a t
    | some b =>
      simp only [minNat?, ht, Option.some.injEq] at h
      rcases min_choice a b with hc | hc
      · rw [hc] at h; subst h; exact List.mem_cons_self a t
      · rw [hc] at h; subst h; exact List.mem_cons_of_mem a (ih ht)

theorem minNat?_le {l : List ℕ} {d : ℕ} (h : minNat? l = some d) :
    ∀ x ∈ l, d ≤ x := by
  induction l generalizing d with
  | nil => simp
  | cons a t ih =>
    intro x hx
    cases ht : minNat? t with
    | none =>
      simp only [minNat?, ht, Option.some.injEq] at h
      rw [minNat?_eq_none.mp ht] at hx
      simp only [List.mem_singleton] at hx
      omega
    | some b =>
      simp only [minNat?, ht, Option.some.injEq] at h
      rcases List.mem_cons.mp hx with heq | hx
      · rw [heq]
        have := min_le_left a b
        omega
      · have h1 : b ≤ x := ih ht x hx
        have h2 : min a b ≤ b := min_le_right a b
        omega

theorem mem_liveIds {cs : List Cursor} {d : ℕ} :
    d ∈ liveIds cs ↔ ∃ c ∈ cs, ∃ p, c.current = some p ∧ p.document_id = d := by
  simp only [liveIds, List.mem_filterMap, Option.map_eq_some']

theorem head?_toList_append_tail (l : List Posting) :
    l.head?.toList ++ l.tail = l := by
  cases l <;> rfl

theorem matchAt_isSome_iff {d : ℕ} {c : Cursor} :
    (matchAt d c).isSome ↔ ∃ p, c.current = some p ∧ p.document_id = d := by
  cases hc : c.current with
  | none => simp [matchAt, hc]
  | some p =>
    by_cases hd : p.document_id = d <;> simp [matchAt, hc, hd]

theorem advance_of_not_match {d : ℕ} {c : Cursor} (h : matchAt d c = none) :
    advance d c = c := by
  cases hc : c.current with
  | none => simp [advance, hc]
  | some p =>
    by_cases hd : p.document_id = d
    · simp [matchAt, hc, hd] at h
    · simp [advance, hc, hd]

theorem pending_advance_match {d : ℕ} {c : Cursor} {p : Posting}
    (hc : c.current = some p) (hd : p.document_id = d) :
    pending (advance d c) = c.rest := by
  subst hd
  simp only [advance, hc, if_pos rfl, pending]
  exact head?_toList_append_tail c.rest

theorem pending_of_match {c : Cursor} {p : Posting}
    (hc : c.current = some p) :
    pending c = p :: c.rest := by
  simp [pending, hc]

theorem csize_advance_le (d : ℕ) (c : Cursor) :
    csize (advance d c) ≤ csize c := by
  cases hc : c.current with
  | none => simp [advance, hc]
  | some p =>
    by_cases hd : p.document_id = d
    · simp only [csize, pending_advance_match hc hd, pending_of_match hc,
        List.length_cons]
      omega
    · simp [advance, hc, hd]

theorem csize_advance_lt {d : ℕ} {c : Cursor} {p : Posting}
    (hc : c.current = some p) (hd : p.document_id = d) :
    csize (advance d c) < csize c := by
  simp only [csize, pending_advance_match hc hd, pending_of_match hc,
    List.length_cons]
  omega

theorem size_advance_lt {cs : List Cursor} {d : ℕ}
    (h : minNat? (liveIds cs) = some d) :
    size (cs.map (advance d)) < size cs := by
  have hd : d ∈ liveIds cs := minNat?_mem h
  obtain ⟨c, hc, p, hp, hpd⟩ := mem_liveIds.mp hd
  rw [size, size, List.map_map]
  exact List.sum_lt_sum _ _ (fun c _ => csize_advance_le d c)
    ⟨c, hc, csize_advance_lt hp hpd⟩

/-! ### The merge loop runs to completion with fuel `size cs + 1` -/

theorem evalLoopF_congr (R : Ranker σ β) (n : ℤ) :
    ∀ f₁ f₂ : ℕ, ∀ r : σ, ∀ cs : List Cursor,
      size cs < f₁ → size cs < f₂ →
      evalLoopF R n f₁ r cs = evalLoopF R n f₂ r cs := by
  intro f₁
  induction f₁ with
  | zero => intro f₂ r cs h₁ h₂; omega
  | succ f ih =>
    intro f₂ r cs h₁ h₂
    obtain ⟨f₂', rfl⟩ : ∃ k, f₂ = k + 1 := ⟨f₂ - 1, by omega⟩
    simp only [evalLoopF]
    cases hm : minNat? (liveIds cs) with
    | none => rfl
    | some d =>
      have hlt := size_advance_lt hm
      have h₁' : size (cs.map (advance d)) < f := by omega
      have h₂' : size (cs.map (advance d)) < f₂' := by omega
      by_cases hn : n ≤ ((matchesAt d cs).length : ℤ)
      · simp only [hn, if_pos, ih _ _ _ h₁' h₂']
      · simp only [hn, if_neg, not_false_iff, ih _ _ _ h₁' h₂']

theorem evalLoop_none {R : Ranker σ β} {n : ℤ} {r : σ} {cs : List Cursor}
    (h : minNat? (liveIds cs) = none) :
    evalLoop R n r cs = ([], []) := by
  rw [evalLoop, evalLoopF, h]

theorem evalLoop_some {R : Ranker σ β} {n : ℤ} {r : σ} {cs : List Cursor}
    {d : ℕ} (h : minNat? (liveIds cs) = some d) :
    evalLoop R n r cs =
      if n ≤ ((matchesAt d cs).length : ℤ) then
        (REvent.reset d ::
            (((matchesAt d cs).map fun u => REvent.update u.1 u.2.1 u.2.2) ++
              REvent.evaluate ::
                (evalLoop R n (driveRanker R r d (matchesAt d cs))
                  (cs.map (advance d))).1),
          (R.evaluate (driveRanker R r d (matchesAt d cs)), d) ::
            (evalLoop R n (driveRanker R r d (matchesAt d cs))
              (cs.map (advance d))).2)
      else evalLoop R n r (cs.map (advance d)) := by
  have hlt := size_advance_lt h
  rw [evalLoop, evalLoopF, h]
  simp only
  by_cases hn : n ≤ ((matchesAt d cs).length : ℤ)
  · simp only [hn, if_pos]
    rw [evalLoopF_congr R n (size cs) (size (cs.map (advance d)) + 1) _ _
      hlt (Nat.lt_succ_self _)]
    rfl
  · simp only [hn, if_neg, not_false_iff]
    rw [evalLoopF_congr R n (size cs) (size (cs.map (advance d)) + 1) _ _
      hlt (Nat.lt_succ_self _)]
    rfl

theorem hasDoc_iff {c : Cursor} {d : ℕ} :
    hasDoc c d = true ↔ ∃ p ∈ pending c, p.document_id = d := by
  simp [hasDoc, List.any_eq_true]

theorem sortedCursor_advance {d : ℕ} {c : Cursor} (hs : SortedCursor c) :
    SortedCursor (advance d c) := by
  cases hc : c.current with
  | none => simpa [advance, hc] using hs
  | some p =>
    by_cases hd : p.document_id = d
    · rw [SortedCursor, pending_advance_match hc hd]
      rw [SortedCursor, pending_of_match hc] at hs
      exact (List.pairwise_cons.mp hs).2
    · simpa [advance, hc, hd] using hs

theorem okCursor_advance {d : ℕ} {c : Cursor} (ho : OkCursor c) :
    OkCursor (advance d c) := by
  cases hc : c.current with
  | none => simpa [advance, hc] using ho
  | some p =>
    by_cases hd : p.document_id = d
    · intro h2
      simp only [advance, hc, hd, if_pos rfl] at h2 ⊢
      cases hr : c.rest with
      | nil => simp [hr]
      | cons q t => rw [hr] at h2; simp at h2
    · simpa [advance, hc, hd] using ho

theorem pending_eq_nil_of_none {c : Cursor} (ho : OkCursor c)
    (hc : c.current = none) : pending c = [] := by
  simp [pending, hc, ho hc]

/-- At the merge minimum `d`, a sorted cursor still contains `d` exactly
when its current posting is at `d`. -/
theorem hasDoc_eq_isSome_matchAt {cs : List Cursor} {d : ℕ}
    (hm : minNat? (liveIds cs) = some d) {c : Cursor} (hcs : c ∈ cs)
    (hs : SortedCursor c) (ho : OkCursor c) :
    hasDoc c d = (matchAt d c).isSome := by
  cases hc : c.current with
  | none =>
    have hp := pending_eq_nil_of_none ho hc
    simp [hasDoc, hp, matchAt, hc]
  | some p =>
    have hdle : d ≤ p.document_id := by
      refine minNat?_le hm _ (mem_liveIds.mpr ⟨c, hcs, p, hc, rfl⟩)
    by_cases hd : p.document_id = d
    · simp [hasDoc, pending_of_match hc, matchAt, hc, hd]
    · simp only [matchAt, hc, hd, if_neg, not_false_iff, Option.isSome_none]
      rw [SortedCursor, pending_of_match hc] at hs
      simp only [List.map_cons, List.pairwise_cons] at hs
      have hlt : ∀ q ∈ c.rest, p.document_id < q.document_id := by
        intro q hq
        exact hs.1 _ (List.mem_map_of_mem Posting.document_id hq)
      rw [Bool.eq_false_iff]
      intro habs
      obtain ⟨q, hq, hqd⟩ := hasDoc_iff.mp habs
      rw [pending_of_match hc] at hq
      rcases List.mem_cons.mp hq with rfl | hq
      · exact hd hqd
      · have := hlt q hq
        omega

theorem length_filterMap_matchAt (d : ℕ) (cs : List Cursor) :
    (matchesAt d cs).length =
      (cs.filter fun c => (matchAt d c).isSome).length := by
  induction cs with
  | nil => rfl
  | cons c t ih =>
    cases h : matchAt d c with
    | none => simpa [matchesAt, List.filterMap_cons, h, List.filter_cons] using ih
    | some u => simpa [matchesAt, List.filterMap_cons, h, List.filter_cons] using ih

/-- At the merge minimum, `doc_match_count` equals the number of streams
in which `d` still occurs at all. -/
theorem countIn_eq_matchesAt_length {cs : List Cursor} {d : ℕ}
    (hm : minNat? (liveIds cs) = some d)
    (hs : ∀ c ∈ cs, SortedCursor c) (ho : ∀ c ∈ cs, OkCursor c) :
    countIn cs d = (matchesAt d cs).length := by
  rw [length_filterMap_matchAt, countIn]
  congr 1
  exact List.filter_congr fun c hc => by
    rw [hasDoc_eq_isSome_matchAt hm hc (hs c hc) (ho c hc)]

/-- Every unconsumed posting of every cursor is at or above the merge
minimum. -/
theorem le_of_mem_pending {cs : List Cursor} {d : ℕ}
    (hm : minNat? (liveIds cs) = some d) {c : Cursor} (hcs : c ∈ cs)
    (hs : SortedCursor c) (ho : OkCursor c) {p : Posting}
    (hp : p ∈ pending c) : d ≤ p.document_id := by
  cases hc : c.current with
  | none => rw [pending_eq_nil_of_none ho hc] at hp; cases hp
  | some q =>
    have hdle : d ≤ q.document_id :=
      minNat?_le hm _ (mem_liveIds.mpr ⟨c, hcs, q, hc, rfl⟩)
    rw [pending_of_match hc] at hp
    rcases List.mem_cons.mp hp with rfl | hp
    · exact hdle
    · rw [SortedCursor, pending_of_match hc] at hs
      simp only [List.map_cons, List.pairwise_cons] at hs
      have := hs.1 _ (List.mem_map_of_mem Posting.document_id hp)
      omega

/-- Advancing at the minimum removes document `d` from the stream and
leaves membership of every other document unchanged. -/
theorem hasDoc_advance {cs : List Cursor} {d : ℕ}
    (hm : minNat? (liveIds cs) = some d) {c : Cursor} (hcs : c ∈ cs)
    (hs : SortedCursor c) (ho : OkCursor c) (e : ℕ) :
    hasDoc (advance d c) e = (hasDoc c e && !(e == d)) := by
  cases hc : c.current with
  | none =>
    have hp := pending_eq_nil_of_none ho hc
    simp [advance, hc, hasDoc, hp]
  | some p =>
    have hdle : d ≤ p.document_id :=
      minNat?_le hm _ (mem_liveIds.mpr ⟨c, hcs, p, hc, rfl⟩)
    have hrest : ∀ q ∈ c.rest, p.document_id < q.document_id := by
      rw [SortedCursor, pending_of_match hc] at hs
      simp only [List.map_cons, List.pairwise_cons] at hs
      intro q hq
      exact hs.1 _ (List.mem_map_of_mem Posting.document_id hq)
    by_cases hd : p.document_id = d
    · rw [hasDoc, pending_advance_match hc hd]
      by_cases he : e = d
      · subst he
        simp only [beq_self_eq_true, Bool.not_true, Bool.and_false]
        rw [List.any_eq_false]
        intro q hq
        have := hrest q hq
        simp only [beq_iff_eq]
        omega
      · have hbe : (e == d) = false := by simp [he]
        rw [hbe]
        simp only [Bool.not_false, Bool.and_true]
        have hpe : (p.document_id == e) = false := by
          rw [beq_eq_false_iff_ne]; omega
        rw [hasDoc, pending_of_match hc]
        simp only [List.any_cons, hpe, Bool.false_or]
    · rw [advance_of_not_match (by simp [matchAt, hc, hd])]
      by_cases he : e = d
      · subst he
        simp only [beq_self_eq_true, Bool.not_true, Bool.and_false]
        rw [Bool.eq_false_iff]
        intro habs
        obtain ⟨q, hq, hqd⟩ := hasDoc_iff.mp habs
        have := le_of_mem_pending hm hcs hs ho hq
        rw [pending_of_match hc] at hq
        rcases List.mem_cons.mp hq with rfl | hq
        · exact hd hqd
        · have := hrest q hq
          omega
      · simp [he]

theorem countIn_map_advance {cs : List Cursor} {d : ℕ}
    (hm : minNat? (liveIds cs) = some d)
    (hs : ∀ c ∈ cs, SortedCursor c) (ho : ∀ c ∈ cs, OkCursor c) (e : ℕ) :
    countIn (cs.map (advance d)) e = if e = d then 0 else countIn cs e := by
  by_cases he : e = d
  · subst he
    rw [if_pos rfl, countIn, List.filter_map, List.length_map]
    have hz : cs.filter ((fun c => hasDoc c e) ∘ advance e) = [] := by
      rw [List.filter_eq_nil_iff]
      intro c hc
      have hd := hasDoc_advance hm hc (hs c hc) (ho c hc) e
      simp only [Function.comp_apply, hd, beq_self_eq_true, Bool.not_true,
        Bool.and_false]
      simp
    rw [hz]
    rfl
  · rw [if_neg he, countIn, List.filter_map, List.length_map, countIn]
    congr 1
    refine List.filter_congr fun c hc => ?_
    have hd := hasDoc_advance hm hc (hs c hc) (ho c hc) e
    have hbe : (e == d) = false := by rw [beq_eq_false_iff_ne]; exact he
    simp only [Function.comp_apply, hd, hbe, Bool.not_false, Bool.and_true]

/-! ### Merge correctness: emitted candidates are exactly the documents
occurring in at least `n` of the unconsumed streams -/

theorem evalLoop_mem_iff {R : Ranker σ β} {n : ℤ} (hn : 1 ≤ n) (r : σ)
    (cs : List Cursor) (hs : ∀ c ∈ cs, SortedCursor c)
    (ho : ∀ c ∈ cs, OkCursor c) (e : ℕ) :
    e ∈ (evalLoop R n r cs).2.map Prod.snd ↔ n ≤ (countIn cs e : ℤ) := by
  cases hm : minNat? (liveIds cs) with
  | none =>
    rw [evalLoop_none hm]
    have hz : countIn cs e = 0 := by
      rw [countIn, List.length_eq_zero, List.filter_eq_nil_iff]
      intro c hc
      have hcn : c.current = none := by
        have hli : liveIds cs = [] := minNat?_eq_none.mp hm
        have := List.filterMap_eq_nil_iff.mp hli c hc
        exact Option.map_eq_none'.mp this
      have hp := pending_eq_nil_of_none (ho c hc) hcn
      simp [hasDoc, hp]
    rw [hz]
    simp only [List.map_nil, List.not_mem_nil, false_iff, Nat.cast_zero]
    omega
  | some d =>
    have hs' : ∀ c ∈ cs.map (advance d), SortedCursor c := by
      intro c hc
      obtain ⟨c0, hc0, rfl⟩ := List.mem_map.mp hc
      exact sortedCursor_advance (hs c0 hc0)
    have ho' : ∀ c ∈ cs.map (advance d), OkCursor c := by
      intro c hc
      obtain ⟨c0, hc0, rfl⟩ := List.mem_map.mp hc
      exact okCursor_advance (ho c0 hc0)
    have hcnt := countIn_eq_matchesAt_length hm hs ho
    have hshift := countIn_map_advance hm hs ho
    rw [evalLoop_some hm]
    by_cases hcond : n ≤ ((matchesAt d cs).length : ℤ)
    · rw [if_pos hcond]
      by_cases he : e = d
      · subst he
        refine iff_of_true (by simp) ?_
        rw [hcnt]
        exact hcond
      · have hrec := @evalLoop_mem_iff σ β R n hn
          (driveRanker R r d (matchesAt d cs)) (cs.map (advance d)) hs' ho' e
        rw [hshift e, if_neg he] at hrec
        simpa [he] using hrec
    · rw [if_neg hcond]
      have hrec := @evalLoop_mem_iff σ β R n hn r (cs.map (advance d)) hs' ho' e
      by_cases he : e = d
      · subst he
        rw [hshift e, if_pos rfl] at hrec
        refine iff_of_false (fun h => ?_) (fun h => ?_)
        · have := hrec.mp h
          simp only [Nat.cast_zero] at this
          omega
        · rw [hcnt] at h
          exact hcond h
      · rw [hshift e, if_neg he] at hrec
        exact hrec
termination_by size cs
decreasing_by
  all_goals exact size_advance_lt hm

/-! ### Monotonicity of the merge -/

theorem exists_hasDoc_of_countIn_pos {cs : List Cursor} {e : ℕ}
    (h : 0 < countIn cs e) : ∃ c ∈ cs, hasDoc c e = true := by
  rw [countIn] at h
  obtain ⟨c, hc⟩ := List.exists_mem_of_length_pos h
  have := List.mem_filter.mp hc
  exact ⟨c, this.1, this.2⟩

/-- Any document still occurring in some stream after advancing past the
minimum `d` is strictly greater than `d`. -/
theorem lt_of_countIn_advance_pos {cs : List Cursor} {d e : ℕ}
    (hm : minNat? (liveIds cs) = some d)
    (hs : ∀ c ∈ cs, SortedCursor c) (ho : ∀ c ∈ cs, OkCursor c)
    (h : 0 < countIn (cs.map (advance d)) e) : d < e := by
  obtain ⟨c', hc', hdoc⟩ := exists_hasDoc_of_countIn_pos h
  obtain ⟨c, hc, rfl⟩ := List.mem_map.mp hc'
  rw [hasDoc_advance hm hc (hs c hc) (ho c hc) e] at hdoc
  simp only [Bool.and_eq_true, Bool.not_eq_true', beq_eq_false_iff_ne] at hdoc
  obtain ⟨h1, hne⟩ := hdoc
  obtain ⟨p, hp, hpd⟩ := hasDoc_iff.mp h1
  have := le_of_mem_pending hm hc (hs c hc) (ho c hc) hp
  omega

/-- Candidates are emitted in strictly increasing document id order. -/
theorem evalLoop_cands_sorted {R : Ranker σ β} {n : ℤ} (hn : 1 ≤ n) (r : σ)
    (cs : List Cursor) (hs : ∀ c ∈ cs, SortedCursor c)
    (ho : ∀ c ∈ cs, OkCursor c) :
    ((evalLoop R n r cs).2.map Prod.snd).Pairwise (· < ·) := by
  cases hm : minNat? (liveIds cs) with
  | none => rw [evalLoop_none hm]; simp
  | some d =>
    have hs' : ∀ c ∈ cs.map (advance d), SortedCursor c := by
      intro c hc
      obtain ⟨c0, hc0, rfl⟩ := List.mem_map.mp hc
      exact sortedCursor_advance (hs c0 hc0)
    have ho' : ∀ c ∈ cs.map (advance d), OkCursor c := by
      intro c hc
      obtain ⟨c0, hc0, rfl⟩ := List.mem_map.mp hc
      exact okCursor_advance (ho c0 hc0)
    rw [evalLoop_some hm]
    by_cases hcond : n ≤ ((matchesAt d cs).length : ℤ)
    · rw [if_pos hcond]
      simp only [List.map_cons, List.pairwise_cons]
      constructor
      · intro e he
        have hmem := (@evalLoop_mem_iff σ β R n hn
          (driveRanker R r d (matchesAt d cs)) (cs.map (advance d))
          hs' ho' e).mp he
        have hpos : 0 < countIn (cs.map (advance d)) e := by
          rcases Nat.eq_zero_or_pos (countIn (cs.map (advance d)) e) with hz | hp
          · rw [hz] at hmem
            simp only [Nat.cast_zero] at hmem
            omega
          · exact hp
        exact lt_of_countIn_advance_pos hm hs ho hpos
      · exact evalLoop_cands_sorted hn _ (cs.map (advance d)) hs' ho'
    · rw [if_neg hcond]
      exact evalLoop_cands_sorted hn r (cs.map (advance d)) hs' ho'
termination_by size cs
decreasing_by
  all_goals exact size_advance_lt hm

/-! ### Step-level cursor facts: no rewind, suffix consumption, untouched
non-minimal cursors, loop exit condition -/

theorem advance_current_mono {d : ℕ} {c : Cursor} (hs : SortedCursor c)
    {p q : Posting} (hp : c.current = some p)
    (hq : (advance d c).current = some q) :
    p.document_id ≤ q.document_id := by
  by_cases hd : p.document_id = d
  · have : (advance d c).current = c.rest.head? := by
      simp [advance, hp, hd]
    rw [this] at hq
    have hqr : q ∈ c.rest := List.mem_of_mem_head? hq
    rw [SortedCursor, pending_of_match hp] at hs
    simp only [List.map_cons, List.pairwise_cons] at hs
    exact le_of_lt (hs.1 _ (List.mem_map_of_mem Posting.document_id hqr))
  · rw [advance_of_not_match (by simp [matchAt, hp, hd])] at hq
    rw [hp] at hq
    cases hq
    exact le_refl _

theorem pending_advance_suffix (d : ℕ) (c : Cursor) :
    pending (advance d c) <:+ pending c := by
  cases hc : c.current with
  | none => rw [advance, hc]
  | some p =>
    by_cases hd : p.document_id = d
    · rw [pending_advance_match hc hd, pending_of_match hc]
      exact List.suffix_cons p c.rest
    · rw [advance_of_not_match (by simp [matchAt, hc, hd])]

theorem minNat?_liveIds_eq_none_iff {cs : List Cursor} :
    minNat? (liveIds cs) = none ↔ ∀ c ∈ cs, c.current = none := by
  rw [minNat?_eq_none, liveIds, List.filterMap_eq_nil_iff]
  constructor
  · intro h c hc
    exact Option.map_eq_none'.mp (h c hc)
  · intro h c hc
    rw [h c hc]
    rfl

theorem exists_strict_advance {cs : List Cursor} {d : ℕ}
    (hm : minNat? (liveIds cs) = some d) :
    ∃ c ∈ cs, csize (advance d c) < csize c := by
  obtain ⟨c, hc, p, hp, hpd⟩ := mem_liveIds.mp (minNat?_mem hm)
  exact ⟨c, hc, csize_advance_lt hp hpd⟩

/-! ### The bounded top-K selector -/

theorem insertDesc_length [LinearOrder β] (st : List (β × ℕ)) (e : β × ℕ) :
    (insertDesc st e).length = st.length + 1 := by
  induction st with
  | nil => rfl
  | cons x xs ih =>
    rw [insertDesc]
    by_cases h : e.1 ≤ x.1
    · rw [if_pos h, List.length_cons, ih]
      rfl
    · rw [if_neg h]
      rfl

theorem sift_length [LinearOrder β] (cap : ℕ) (st : List (β × ℕ))
    (e : β × ℕ) :
    (sift cap st e).length = min cap (st.length + 1) := by
  rw [sift, List.length_take, insertDesc_length]

theorem foldl_sift_length [LinearOrder β] (cap : ℕ) (l : List (β × ℕ)) :
    ∀ st : List (β × ℕ), st.length ≤ cap →
      (l.foldl (sift cap) st).length = min cap (st.length + l.length) := by
  induction l with
  | nil =>
    intro st h
    simp only [List.foldl_nil, List.length_nil, Nat.add_zero]
    omega
  | cons e l ih =>
    intro st h
    rw [List.foldl_cons]
    have h2 : (sift cap st e).length ≤ cap := by
      rw [sift_length]; omega
    rw [ih _ h2, sift_length, List.length_cons]
    omega

theorem foldl_sift_length_le [LinearOrder β] (cap : ℕ) (l : List (β × ℕ)) :
    (l.foldl (sift cap) []).length ≤ cap := by
  rw [foldl_sift_length cap l [] (by simp)]
  omega

theorem mem_insertDesc [LinearOrder β] {st : List (β × ℕ)} {e a : β × ℕ} :
    a ∈ insertDesc st e ↔ a = e ∨ a ∈ st := by
  induction st with
  | nil => simp [insertDesc]
  | cons x xs ih =>
    rw [insertDesc]
    by_cases h : e.1 ≤ x.1
    · rw [if_pos h]
      simp only [List.mem_cons, ih]
      tauto
    · rw [if_neg h]
      simp only [List.mem_cons]

theorem insertDesc_sorted [LinearOrder β] {st : List (β × ℕ)} (e : β × ℕ)
    (h : st.Pairwise (fun a b => b.1 ≤ a.1)) :
    (insertDesc st e).Pairwise (fun a b => b.1 ≤ a.1) := by
  induction st with
  | nil => simp [insertDesc]
  | cons x xs ih =>
    rw [List.pairwise_cons] at h
    rw [insertDesc]
    by_cases hle : e.1 ≤ x.1
    · rw [if_pos hle, List.pairwise_cons]
      refine ⟨fun a ha => ?_, ih h.2⟩
      rcases mem_insertDesc.mp ha with rfl | ha
      · exact hle
      · exact h.1 a ha
    · rw [if_neg hle, List.pairwise_cons]
      push_neg at hle
      refine ⟨fun a ha => ?_, List.pairwise_cons.mpr ⟨h.1, h.2⟩⟩
      rcases List.mem_cons.mp ha with rfl | ha
      · exact le_of_lt hle
      · exact le_trans (h.1 a ha) (le_of_lt hle)

theorem sift_sorted [LinearOrder β] (cap : ℕ) {st : List (β × ℕ)}
    (e : β × ℕ) (h : st.Pairwise (fun a b => b.1 ≤ a.1)) :
    (sift cap st e).Pairwise (fun a b => b.1 ≤ a.1) :=
  List.Pairwise.sublist (List.take_sublist _ _) (insertDesc_sorted e h)

theorem foldl_sift_sorted [LinearOrder β] (cap : ℕ) (l : List (β × ℕ)) :
    ∀ st : List (β × ℕ), st.Pairwise (fun a b => b.1 ≤ a.1) →
      (l.foldl (sift cap) st).Pairwise (fun a b => b.1 ≤ a.1) := by
  induction l with
  | nil => intro st h; simpa using h
  | cons e l ih =>
    intro st h
    rw [List.foldl_cons]
    exact ih _ (sift_sorted cap e h)

/-! ### The ranker call protocol -/

theorem matchAt_eq_some {d : ℕ} {c : Cursor} {u : Term × ℕ × Posting}
    (h : matchAt d c = some u) :
    u.1 = c.term ∧ u.2.1 = c.mult ∧ u.2.2.document_id = d := by
  cases hc : c.current with
  | none => simp [matchAt, hc] at h
  | some p =>
    by_cases hd : p.document_id = d
    · simp only [matchAt, hc, hd, eq_self_iff_true, if_true,
        Option.some.injEq] at h
      subst h
      exact ⟨rfl, rfl, hd⟩
    · simp [matchAt, hc, hd] at h

theorem mem_matchesAt {d : ℕ} {cs : List Cursor} {u : Term × ℕ × Posting} :
    u ∈ matchesAt d cs ↔ ∃ c ∈ cs, matchAt d c = some u := by
  simp [matchesAt, List.mem_filterMap]

theorem matchesAt_doc_ids {d : ℕ} {cs : List Cursor} :
    ∀ u ∈ matchesAt d cs, u.2.2.document_id = d := by
  intro u hu
  obtain ⟨c, _, h⟩ := mem_matchesAt.mp hu
  exact (matchAt_eq_some h).2.2

theorem matchesAt_mult {f : Term → ℕ} {cs : List Cursor}
    (hf : ∀ c ∈ cs, c.mult = f c.term) {d : ℕ} :
    ∀ u ∈ matchesAt d cs, u.2.1 = f u.1 := by
  intro u hu
  obtain ⟨c, hc, h⟩ := mem_matchesAt.mp hu
  obtain ⟨h1, h2, _⟩ := matchAt_eq_some h
  rw [h2, hf c hc, h1]

theorem matchesAt_terms_sublist (d : ℕ) (cs : List Cursor) :
    List.Sublist ((matchesAt d cs).map fun u => u.1)
      (cs.map Cursor.term) := by
  induction cs with
  | nil => simp [matchesAt]
  | cons c t ih =>
    rw [matchesAt, List.filterMap_cons]
    cases h : matchAt d c with
    | none =>
      simp only [List.map_cons]
      exact List.Sublist.cons c.term ih
    | some u =>
      simp only [List.map_cons, (matchAt_eq_some h).1]
      exact List.Sublist.cons₂ c.term ih

theorem advance_term (d : ℕ) (c : Cursor) : (advance d c).term = c.term := by
  cases hc : c.current with
  | none => simp [advance, hc]
  | some p =>
    by_cases hd : p.document_id = d <;> simp [advance, hc, hd]

theorem advance_mult (d : ℕ) (c : Cursor) : (advance d c).mult = c.mult := by
  cases hc : c.current with
  | none => simp [advance, hc]
  | some p =>
    by_cases hd : p.document_id = d <;> simp [advance, hc, hd]

theorem map_term_map_advance (d : ℕ) (cs : List Cursor) :
    (cs.map (advance d)).map Cursor.term = cs.map Cursor.term := by
  rw [List.map_map]
  exact List.map_congr_left fun c _ => advance_term d c

theorem advance_mult_pres {f : Term → ℕ} {cs : List Cursor}
    (hf : ∀ c ∈ cs, c.mult = f c.term) (d : ℕ) :
    ∀ c ∈ cs.map (advance d), c.mult = f c.term := by
  intro c hc
  obtain ⟨c0, hc0, rfl⟩ := List.mem_map.mp hc
  rw [advance_mult, advance_term, hf c0 hc0]

theorem parseAux_block (d : ℕ) (us : List (Term × ℕ × Posting))
    (tr : List REvent) (h : ∀ u ∈ us, u.2.2.document_id = d) :
    ∀ acc, parseAux (some (d, acc))
        ((us.map fun u => REvent.update u.1 u.2.1 u.2.2) ++
          REvent.evaluate :: tr) =
      (parseAux none tr).map fun bs => (d, acc ++ us) :: bs := by
  induction us with
  | nil =>
    intro acc
    simp [parseAux]
  | cons u us ih =>
    intro acc
    obtain ⟨t, k, p⟩ := u
    have hd : p.document_id = d := h (t, k, p) (List.mem_cons_self _ _)
    simp only [List.map_cons, List.cons_append, parseAux, hd,
      eq_self_iff_true, if_true, List.append_eq]
    rw [ih (fun v hv => h v (List.mem_cons_of_mem _ hv)) (acc ++ [(t, k, p)])]
    simp

/-- The whole trace of a merge run parses into per-candidate blocks: one
block per emitted candidate, carrying that candidate's document id, with
every update naming the reset document, the multiplicity function, and
terms in first-occurrence order. -/
theorem evalLoop_trace_parses {R : Ranker σ β} {n : ℤ} (r : σ)
    (cs : List Cursor) (f : Term → ℕ) (hf : ∀ c ∈ cs, c.mult = f c.term) :
    ∃ bs, parseAux none (evalLoop R n r cs).1 = some bs ∧
      bs.map Prod.fst = (evalLoop R n r cs).2.map Prod.snd ∧
      ∀ b ∈ bs, (∀ u ∈ b.2, u.2.2.document_id = b.1 ∧ u.2.1 = f u.1) ∧
        List.Sublist (b.2.map fun u => u.1) (cs.map Cursor.term) := by
  cases hm : minNat? (liveIds cs) with
  | none =>
    rw [evalLoop_none hm]
    exact ⟨[], rfl, rfl, by simp⟩
  | some d =>
    have hf' : ∀ c ∈ cs.map (advance d), c.mult = f c.term :=
      advance_mult_pres hf d
    rw [evalLoop_some hm]
    by_cases hcond : n ≤ ((matchesAt d cs).length : ℤ)
    · rw [if_pos hcond]
      obtain ⟨bs, hp, hmap, hprops⟩ := evalLoop_trace_parses
        (driveRanker R r d (matchesAt d cs)) (cs.map (advance d)) f hf'
      refine ⟨(d, matchesAt d cs) :: bs, ?_, ?_, ?_⟩
      · show parseAux none (REvent.reset d :: _) = _
        rw [parseAux, parseAux_block d (matchesAt d cs) _ matchesAt_doc_ids []]
        rw [hp]
        simp
      · simp only [List.map_cons, hmap]
      · intro b hb
        rcases List.mem_cons.mp hb with rfl | hb
        · refine ⟨fun u hu => ⟨matchesAt_doc_ids u hu,
            matchesAt_mult hf u hu⟩, matchesAt_terms_sublist d cs⟩
        · refine ⟨(hprops b hb).1, ?_⟩
          rw [← map_term_map_advance d cs]
          exact (hprops b hb).2
    · rw [if_neg hcond]
      obtain ⟨bs, hp, hmap, hprops⟩ :=
        evalLoop_trace_parses r (cs.map (advance d)) f hf'
      refine ⟨bs, hp, hmap, fun b hb => ⟨(hprops b hb).1, ?_⟩⟩
      rw [← map_term_map_advance d cs]
      exact (hprops b hb).2
termination_by size cs
decreasing_by
  all_goals exact size_advance_lt hm

/-- Replaying any protocol-conforming trace against `BetterRanker` never
trips the document-id assertion in its `update`. -/
theorem runBetter_isSome (idf : Term → ℚ) :
    ∀ (tr : List REvent) (st : Option (ℕ × List (Term × ℕ × Posting)))
      (s : BRState), (parseAux st tr).isSome = true →
      (∀ d us, st = some (d, us) → s.document_id = some d) →
      (runBetter idf s tr).isSome = true := by
  intro tr
  induction tr with
  | nil =>
    intro st s hp _
    cases st with
    | none => simp [runBetter]
    | some du => obtain ⟨d, us⟩ := du; simp [parseAux] at hp
  | cons ev tr ih =>
    intro st s hp hst
    cases ev with
    | reset d =>
      cases st with
      | none =>
        rw [parseAux] at hp
        rw [runBetter]
        exact ih (some (d, [])) ⟨0, some d⟩ hp
          (fun d' us' h => by cases h; rfl)
      | some du => obtain ⟨d', us⟩ := du; simp [parseAux] at hp
    | update t k p =>
      cases st with
      | none => simp [parseAux] at hp
      | some du =>
        obtain ⟨d, us⟩ := du
        have hdoc : s.document_id = some d := hst d us rfl
        rw [parseAux] at hp
        by_cases hpd : p.document_id = d
        · rw [if_pos hpd] at hp
          rw [runBetter]
          have hupd : BetterRanker.update idf s t k p =
              some ⟨s.score + (p.term_frequency : ℚ) * idf t,
                s.document_id⟩ := by
            rw [BetterRanker.update, if_pos (by rw [hdoc, hpd])]
          rw [hupd]
          exact ih (some (d, us ++ [(t, k, p)])) _ hp
            (fun d' us' h => by cases h; exact hdoc)
        · rw [if_neg hpd] at hp
          simp at hp
    | evaluate =>
      cases st with
      | none => simp [parseAux] at hp
      | some du =>
        obtain ⟨d, us⟩ := du
        rw [parseAux] at hp
        rw [runBetter]
        refine ih none _ ?_ (fun d' us' h => by cases h)
        cases hq : parseAux none tr with
        | none => rw [hq] at hp; simp at hp
        | some bs => rfl

/-! ### The threshold computation -/

theorem intTrunc_of_nonneg {q : ℚ} (h : 0 ≤ q) : intTrunc q = ⌊q⌋ :=
  if_neg (not_lt.mpr h)

theorem intTrunc_nonpos {q : ℚ} (h : q ≤ 0) : intTrunc q ≤ 0 := by
  rw [intTrunc]
  by_cases hq : q < 0
  · rw [if_pos hq]
    exact Int.ceil_le.mpr (by simpa using h)
  · rw [if_neg hq]
    have : q = 0 := le_antisymm h (not_lt.mp hq)
    rw [this]
    simp

theorem computeN_pos_formula {threshold : ℚ} {m : ℕ}
    (h0 : 0 < threshold) :
    computeN threshold m = max 1 (min (m : ℤ) ⌊threshold * m⌋) := by
  rw [computeN, intTrunc_of_nonneg]
  exact mul_nonneg (le_of_lt h0) (Nat.cast_nonneg m)

theorem computeN_one {m : ℕ} (hm : 1 ≤ m) : computeN 1 m = m := by
  rw [computeN, intTrunc_of_nonneg (by positivity)]
  rw [one_mul, Int.floor_natCast]
  omega

theorem computeN_nonpos {threshold : ℚ} {m : ℕ} (ht : threshold ≤ 0) :
    computeN threshold m = 1 := by
  have h1 : intTrunc (threshold * m) ≤ 0 :=
    intTrunc_nonpos (mul_nonpos_of_nonpos_of_nonneg ht (Nat.cast_nonneg m))
  rw [computeN]
  omega

theorem computeN_inv {m : ℕ} (hm : 1 ≤ m) : computeN (1 / m) m = 1 := by
  have hne : ((m : ℚ)) ≠ 0 := Nat.cast_ne_zero.mpr (by omega)
  have h1 : (1 / m : ℚ) * m = 1 := by field_simp
  rw [computeN, h1, intTrunc_of_nonneg (by norm_num), Int.floor_one]
  omega

theorem computeN_over {threshold : ℚ} {m : ℕ} (hm : 1 ≤ m)
    (h : (m : ℤ) < intTrunc (threshold * m)) : computeN threshold m = m := by
  rw [computeN]
  omega

theorem computeN_ge_one (threshold : ℚ) (m : ℕ) : 1 ≤ computeN threshold m :=
  le_max_left 1 _

/-- `evaluate` fixes `n` once, before the merge; the whole run is the core
evaluation at that `n`. -/
theorem evaluate_eq_evalCore [LinearOrder β] (R : Ranker σ β) (r : σ)
    (tokens : List Term) (index : Term → List Posting) (threshold : ℚ)
    (hit_count : ℤ) :
    SimpleSearchEngine.evaluate R r tokens index threshold hit_count =
      evalCore R r tokens index
        (computeN threshold (firstDedup tokens).length) hit_count := rfl

/-! ### Initial cursor facts -/

theorem pending_initCursor (tokens : List Term)
    (index : Term → List Posting) (t : Term) :
    pending (initCursor tokens index t) = index t := by
  simp only [initCursor, pending]
  exact head?_toList_append_tail (index t)

theorem okCursor_initCursor (tokens : List Term)
    (index : Term → List Posting) (t : Term) :
    OkCursor (initCursor tokens index t) := by
  intro h
  simp only [initCursor] at h ⊢
  rw [List.head?_eq_none_iff] at h
  rw [h]
  rfl

theorem countIn_init (tokens : List Term) (index : Term → List Posting)
    (d : ℕ) :
    countIn ((firstDedup tokens).map (initCursor tokens index)) d =
      ((firstDedup tokens).filter fun t =>
        (index t).any fun p => p.document_id == d).length := by
  rw [countIn, List.filter_map, List.length_map]
  congr 1
  refine List.filter_congr fun t _ => ?_
  simp only [Function.comp_apply, hasDoc, pending_initCursor]

theorem initCursor_mult (tokens : List Term) (index : Term → List Posting) :
    ∀ c ∈ (firstDedup tokens).map (initCursor tokens index),
      c.mult = tokens.count c.term := by
  intro c hc
  obtain ⟨t, _, rfl⟩ := List.mem_map.mp hc
  rfl

theorem map_term_initCursor (tokens : List Term)
    (index : Term → List Posting) :
    ((firstDedup tokens).map (initCursor tokens index)).map Cursor.term =
      firstDedup tokens := by
  rw [List.map_map]
  have h : (Cursor.term ∘ initCursor tokens index) = id := funext fun t => rfl
  rw [h, List.map_id]

/-! ### The claims -/

/-- C1: for a query whose M unique terms have strictly sorted posting
lists (document ids unique within each list), and any threshold realizing
a match requirement N (every N from 1 to M is realizable, e.g. by ratio
N/M), the documents for which `evaluate` drives the ranker — its `results`
entries — are exactly those appearing in at least N of the M posting
lists; N = 1 is the union and N = M the intersection, through the same
code path. -/
theorem C1_merge_candidates_iff [LinearOrder β] (R : Ranker σ β) (r : σ)
    (tokens : List Term) (index : Term → List Posting) (threshold : ℚ)
    (hit_count : ℤ) (N : ℤ)
    (hthr : computeN threshold (firstDedup tokens).length = N)
    (hsorted : ∀ t, ((index t).map Posting.document_id).Pairwise (· < ·)) :
    ∀ d, d ∈ (SimpleSearchEngine.evaluate R r tokens index threshold
        hit_count).results.map Prod.snd ↔
      N ≤ (((firstDedup tokens).filter fun t =>
        (index t).any fun p => p.document_id == d).length : ℤ) := by
  intro d
  have hn : (1 : ℤ) ≤ N := by
    rw [← hthr]
    exact computeN_ge_one threshold _
  have hs : ∀ c ∈ (firstDedup tokens).map (initCursor tokens index),
      SortedCursor c := by
    intro c hc
    obtain ⟨t, _, rfl⟩ := List.mem_map.mp hc
    rw [SortedCursor, pending_initCursor]
    exact hsorted t
  have ho : ∀ c ∈ (firstDedup tokens).map (initCursor tokens index),
      OkCursor c := by
    intro c hc
    obtain ⟨t, _, rfl⟩ := List.mem_map.mp hc
    exact okCursor_initCursor tokens index t
  have h := @evalLoop_mem_iff σ β R N hn r
    ((firstDedup tokens).map (initCursor tokens index)) hs ho d
  have hres : (SimpleSearchEngine.evaluate R r tokens index threshold
      hit_count).results =
      (evalLoop R N r ((firstDedup tokens).map (initCursor tokens index))).2
      := by
    rw [evaluate_eq_evalCore, hthr]
    rfl
  rw [hres, h, countIn_init]

/-- Witness for C1, on the spec's concrete scenario 1: terms a, b, c with
posting lists [1,3,5], [2,3,6], [3,4] and ratio 1.0 (so N = M = 3, pure
AND): document 3 is a candidate exactly because it occurs in all three
lists, and the candidate list is precisely [3]. -/
theorem C1_witness :
    (3 ∈ (SimpleSearchEngine.evaluate countRanker 0 tok3 idx3 1
        10).results.map Prod.snd ↔
      (3 : ℤ) ≤ ((tok3.filter fun t =>
        (idx3 t).any fun p => p.document_id == 3).length : ℤ)) ∧
    (SimpleSearchEngine.evaluate countRanker 0 tok3 idx3 1
        10).results.map Prod.snd = [3] := by
  constructor
  · have hd : firstDedup tok3 = tok3 := by decide
    have hthr : computeN 1 (firstDedup tok3).length = 3 := by
      rw [show (firstDedup tok3).length = 3 from by decide]
      exact computeN_one (by omega)
    have hsorted : ∀ t, ((idx3 t).map Posting.document_id).Pairwise (· < ·)
        := by
      intro t
      rw [idx3]
      split
      · decide
      · split
        · decide
        · split
          · decide
          · decide
    have := C1_merge_candidates_iff countRanker 0 tok3 idx3 1 10 3 hthr
      hsorted 3
    rwa [hd] at this
  · have hthr : computeN 1 (firstDedup tok3).length = 3 := by
      rw [show (firstDedup tok3).length = 3 from by decide]
      exact computeN_one (by omega)
    rw [evaluate_eq_evalCore, hthr]
    decide

/-- C2: for a query with M ≥ 1 unique terms and a ratio in (0,1], the
match threshold `computeN` used by `evaluate` (fixed once per query, see
`evaluate_eq_evalCore`) equals `max(1, min(M, floor(ratio * M)))`: on
nonnegative products Python's `int()` truncation coincides with the
spec's floor. -/
theorem C2_threshold_formula (threshold : ℚ) (m : ℕ) (h0 : 0 < threshold)
    (_h1 : threshold ≤ 1) (_hm : 1 ≤ m) :
    computeN threshold m = max 1 (min (m : ℤ) ⌊threshold * (m : ℚ)⌋) :=
  computeN_pos_formula h0

/-- Witness for C2 at ratio 0.34 and M = 3: the formula applies and gives
N = 1. -/
theorem C2_witness :
    computeN 0.34 3 = max 1 (min (3 : ℤ) ⌊(0.34 : ℚ) * (3 : ℚ)⌋) ∧
    computeN 0.34 3 = 1 := by
  constructor
  · exact C2_threshold_formula 0.34 3 (by norm_num) (by norm_num)
      (by norm_num)
  · norm_num [computeN, intTrunc, Int.floor_eq_iff]

/-- C3 counterexample: with match_threshold = 2 (outside (0,1]) and
hit_count = -5 (not positive), `evaluate` does not reject the options and
does not stop before the merge: it runs the full merge, drives the ranker
(nonempty trace), scores candidates (nonempty results) and still yields a
result.  The claimed boundary rejection does not exist in the code. -/
theorem C3_counterexample :
    ¬((0 : ℚ) < 2 ∧ (2 : ℚ) ≤ 1) ∧ (-5 : ℤ) ≤ 0 ∧
    (SimpleSearchEngine.evaluate countRanker 0 tok3 idx3 2 (-5)).trace ≠
      [] ∧
    (SimpleSearchEngine.evaluate countRanker 0 tok3 idx3 2 (-5)).results ≠
      [] ∧
    (SimpleSearchEngine.evaluate countRanker 0 tok3 idx3 2 (-5)).winners ≠
      [] := by
  have hN : computeN 2 (firstDedup tok3).length = 3 := by
    rw [show (firstDedup tok3).length = 3 from by decide]
    norm_num [computeN, intTrunc]
  refine ⟨by norm_num, by norm_num, ?_, ?_, ?_⟩ <;>
    rw [evaluate_eq_evalCore, hN] <;> decide

/-- C3 amended: configuration errors are not rejected and are not checked
before the merge; instead the merge and ranker protocol always run in
full — the trace and scored-candidate list do not depend on hit_count at
all — and a non-positive hit_count is silently clamped afterwards, making
evaluation behave exactly as hit_count = 1 (out-of-range thresholds are
likewise clamped through N, see C10). -/
theorem C3_options_clamped [LinearOrder β] (R : Ranker σ β) (r : σ)
    (tokens : List Term) (index : Term → List Posting) (threshold : ℚ)
    (hit_count : ℤ) :
    (SimpleSearchEngine.evaluate R r tokens index threshold
        hit_count).trace =
      (SimpleSearchEngine.evaluate R r tokens index threshold 1).trace ∧
    (SimpleSearchEngine.evaluate R r tokens index threshold
        hit_count).results =
      (SimpleSearchEngine.evaluate R r tokens index threshold 1).results ∧
    (hit_count ≤ 0 →
      SimpleSearchEngine.evaluate R r tokens index threshold hit_count =
        SimpleSearchEngine.evaluate R r tokens index threshold 1) := by
  refine ⟨rfl, rfl, fun hh => ?_⟩
  have h2 : (max 1 (min 100 hit_count)).toNat =
      (max 1 (min 100 (1 : ℤ))).toNat := by omega
  rw [evaluate_eq_evalCore, evaluate_eq_evalCore, evalCore, evalCore, h2]

/-- Witness for C3's amended statement: hit_count = -5 behaves exactly as
hit_count = 1. -/
theorem C3_witness :
    SimpleSearchEngine.evaluate countRanker 0 tok3 idx3 1 (-5) =
      SimpleSearchEngine.evaluate countRanker 0 tok3 idx3 1 1 :=
  (C3_options_clamped countRanker 0 tok3 idx3 1 (-5)).2.2 (by norm_num)

/-- C4: the ranker call trace of every run decomposes into one block per
candidate — exactly one reset at the candidate's document id, then one
update per matching term carrying that term's query multiplicity and a
posting with the reset document id, delivered in first-occurrence term
order (a sublist of the deduplicated term list), then exactly one
evaluate (this is what `parseAux` accepts); consequently replaying the
trace against `BetterRanker` never fails the document-id assertion in its
`update`. -/
theorem C4_ranker_protocol [LinearOrder β] (R : Ranker σ β) (r : σ)
    (tokens : List Term) (index : Term → List Posting) (threshold : ℚ)
    (hit_count : ℤ) (idf : Term → ℚ) :
    ∃ bs, parseAux none (SimpleSearchEngine.evaluate R r tokens index
        threshold hit_count).trace = some bs ∧
      bs.map Prod.fst = (SimpleSearchEngine.evaluate R r tokens index
        threshold hit_count).results.map Prod.snd ∧
      (∀ b ∈ bs, (∀ u ∈ b.2, u.2.2.document_id = b.1 ∧
          u.2.1 = tokens.count u.1) ∧
        List.Sublist (b.2.map fun u => u.1) (firstDedup tokens)) ∧
      (runBetter idf ⟨0, none⟩ (SimpleSearchEngine.evaluate R r tokens
        index threshold hit_count).trace).isSome = true := by
  obtain ⟨bs, hp, hmap, hprops⟩ := evalLoop_trace_parses
    (R := R) (n := computeN threshold (firstDedup tokens).length) r
    ((firstDedup tokens).map (initCursor tokens index))
    (fun t => tokens.count t) (initCursor_mult tokens index)
  refine ⟨bs, hp, hmap, ?_, ?_⟩
  · intro b hb
    refine ⟨(hprops b hb).1, ?_⟩
    have := (hprops b hb).2
    rwa [map_term_initCursor] at this
  · refine runBetter_isSome idf _ none ⟨0, none⟩ ?_ (fun d us h => by cases h)
    show (parseAux none (evalLoop R
      (computeN threshold (firstDedup tokens).length) r
      ((firstDedup tokens).map (initCursor tokens index))).1).isSome = true
    rw [hp]
    rfl

/-- Witness for C4 at the spec's concrete scenario: the trace of the AND
query over a/b/c parses, and `BetterRanker` replays it without tripping
its assertion. -/
theorem C4_witness :
    (runBetter (fun _ => 1) ⟨0, none⟩ (SimpleSearchEngine.evaluate
      countRanker 0 tok3 idx3 1 10).trace).isSome = true := by
  obtain ⟨bs, _, _, _, h4⟩ :=
    C4_ranker_protocol countRanker 0 tok3 idx3 1 10 (fun _ => 1)
  exact h4

/-- C5: the yielded result sequence is sorted by descending score, its
length is min(K, C) where C is the number of scored candidates and K the
hit_count clamped to [1, 100], and while sifting the candidates the
selector never holds more than K entries at any intermediate point. -/
theorem C5_topk [LinearOrder β] (R : Ranker σ β) (r : σ)
    (tokens : List Term) (index : Term → List Posting) (threshold : ℚ)
    (hit_count : ℤ) :
    (SimpleSearchEngine.evaluate R r tokens index threshold
        hit_count).winners.Pairwise (fun a b => b.1 ≤ a.1) ∧
    (SimpleSearchEngine.evaluate R r tokens index threshold
        hit_count).winners.length =
      min (max 1 (min 100 hit_count)).toNat
        (SimpleSearchEngine.evaluate R r tokens index threshold
          hit_count).results.length ∧
    ∀ pre, List.IsPrefix pre (SimpleSearchEngine.evaluate R r tokens index
        threshold hit_count).results →
      (pre.foldl (sift (max 1 (min 100 hit_count)).toNat) []).length ≤
        (max 1 (min 100 hit_count)).toNat := by
  refine ⟨?_, ?_, ?_⟩
  · exact foldl_sift_sorted _ _ [] (by simp)
  · rw [show (SimpleSearchEngine.evaluate R r tokens index threshold
        hit_count).winners = (SimpleSearchEngine.evaluate R r tokens index
        threshold hit_count).results.foldl
          (sift (max 1 (min 100 hit_count)).toNat) [] from rfl]
    rw [foldl_sift_length _ _ [] (by simp)]
    simp
  · intro pre _
    rw [foldl_sift_length _ _ [] (by simp)]
    omega

/-- Witness for C5: with hit_count = 1 on the OR query (six candidates),
the yielded sequence has length min(1, 6) = 1, and sifting any prefix of
the candidate list keeps at most one entry. -/
theorem C5_witness :
    (SimpleSearchEngine.evaluate countRanker 0 tok3 idx3 1 1).winners.length
      = min (max 1 (min 100 (1 : ℤ))).toNat
        (SimpleSearchEngine.evaluate countRanker 0 tok3 idx3 1
          1).results.length ∧
    ((SimpleSearchEngine.evaluate countRanker 0 tok3 idx3 1
        1).results.foldl (sift (max 1 (min 100 (1 : ℤ))).toNat) []).length ≤
      (max 1 (min 100 (1 : ℤ))).toNat := by
  refine ⟨(C5_topk countRanker 0 tok3 idx3 1 1).2.1, ?_⟩
  exact (C5_topk countRanker 0 tok3 idx3 1 1).2.2 _ (List.prefix_refl _)

/-- C6: throughout a run over sorted cursors, advancing at the current
minimum never decreases any cursor's document id, leaves every cursor not
standing at the minimum untouched, consumes postings only from the front
(the unconsumed part stays a suffix, so each posting is consumed at most
once), and the candidate ids are emitted in strictly increasing order. -/
theorem C6_monotonic (R : Ranker σ β) (n : ℤ) (hn : 1 ≤ n) (r : σ)
    (cs : List Cursor) (hs : ∀ c ∈ cs, SortedCursor c)
    (ho : ∀ c ∈ cs, OkCursor c) :
    (∀ d, minNat? (liveIds cs) = some d →
      ∀ c ∈ cs, (matchAt d c = none → advance d c = c) ∧
        (∀ p q, c.current = some p → (advance d c).current = some q →
          p.document_id ≤ q.document_id) ∧
        List.IsSuffix (pending (advance d c)) (pending c)) ∧
    ((evalLoop R n r cs).2.map Prod.snd).Pairwise (· < ·) := by
  constructor
  · intro d _ c hc
    exact ⟨advance_of_not_match,
      fun p q hp hq => advance_current_mono (hs c hc) hp hq,
      pending_advance_suffix d c⟩
  · exact evalLoop_cands_sorted hn r cs hs ho

/-- Witness for C6 on the spec's three-list example with n = 2: the
emitted candidate ids are strictly increasing. -/
theorem C6_witness :
    ((evalLoop countRanker 2 0
      ((firstDedup tok3).map (initCursor tok3 idx3))).2.map
        Prod.snd).Pairwise (· < ·) :=
  (C6_monotonic countRanker 2 (by norm_num) 0
    ((firstDedup tok3).map (initCursor tok3 idx3))
    (by decide) (by decide)).2

/-- C7: a query resolving to zero terms produces no merge work, no ranker
call, no candidate, and an empty result sequence. -/
theorem C7_empty_query [LinearOrder β] (R : Ranker σ β) (r : σ)
    (index : Term → List Posting) (threshold : ℚ) (hit_count : ℤ) :
    SimpleSearchEngine.evaluate R r [] index threshold hit_count =
      ⟨[], [], []⟩ := rfl

/-- C8: the merge loop's guard is exactly "some cursor is live": the loop
stops, producing nothing further, precisely when every cursor is
exhausted; and while some cursor is live, at least one cursor (one at the
minimum) is strictly consumed, so the total number of unconsumed postings
strictly decreases — the loop terminates on finite streams. -/
theorem C8_termination (R : Ranker σ β) (n : ℤ) (r : σ) (cs : List Cursor) :
    (minNat? (liveIds cs) = none ↔ ∀ c ∈ cs, c.current = none) ∧
    (minNat? (liveIds cs) = none → evalLoop R n r cs = ([], [])) ∧
    ∀ d, minNat? (liveIds cs) = some d →
      (∃ c ∈ cs, csize (advance d c) < csize c) ∧
      size (cs.map (advance d)) < size cs := by
  exact ⟨minNat?_liveIds_eq_none_iff, evalLoop_none,
    fun d hm => ⟨exists_strict_advance hm, size_advance_lt hm⟩⟩

/-- Witness for C8: on a one-cursor state standing at document 1 the
measure strictly decreases, and on an exhausted state the loop yields
nothing. -/
theorem C8_witness :
    size ([(⟨"a", 1, some ⟨1, 1⟩, [⟨3, 1⟩]⟩ : Cursor)].map (advance 1)) <
      size [(⟨"a", 1, some ⟨1, 1⟩, [⟨3, 1⟩]⟩ : Cursor)] ∧
    evalLoop countRanker 1 0 [(⟨"a", 1, none, []⟩ : Cursor)] = ([], []) := by
  constructor
  · exact ((C8_termination countRanker 1 0
      [(⟨"a", 1, some ⟨1, 1⟩, [⟨3, 1⟩]⟩ : Cursor)]).2.2 1 (by decide)).2
  · exact (C8_termination countRanker 1 0
      [(⟨"a", 1, none, []⟩ : Cursor)]).2.1 (by decide)

/-- C9 counterexample: with K = 1 and an OR query over a/b/c the merge
scores six candidates and the evaluator retains all six of them in its
internal `results` list before any sifting happens — the retention of
scored candidates is not bounded by K; only the final yield is. -/
theorem C9_counterexample :
    (max 1 (min 100 (1 : ℤ))).toNat = 1 ∧
    (SimpleSearchEngine.evaluate countRanker 0 tok3 idx3 (1 / 3)
      1).results.length = 6 ∧
    (SimpleSearchEngine.evaluate countRanker 0 tok3 idx3 (1 / 3)
      1).winners.length = 1 := by
  have hN : computeN (1 / 3) (firstDedup tok3).length = 1 := by
    rw [show (firstDedup tok3).length = 3 from by decide]
    norm_num [computeN, intTrunc]
  refine ⟨by norm_num, ?_, ?_⟩ <;> rw [evaluate_eq_evalCore, hN] <;> decide

/-- C9 amended: only the bounded selector's retention is limited by K —
while sifting, its state never exceeds K entries — but the evaluator does
materialize the complete scored-candidate list first and only then feeds
it to the selector. -/
theorem C9_materializes_before_sift [LinearOrder β] (R : Ranker σ β)
    (r : σ) (tokens : List Term) (index : Term → List Posting)
    (threshold : ℚ) (hit_count : ℤ) :
    (SimpleSearchEngine.evaluate R r tokens index threshold
        hit_count).winners =
      (SimpleSearchEngine.evaluate R r tokens index threshold
        hit_count).results.foldl
          (sift (max 1 (min 100 hit_count)).toNat) [] ∧
    ∀ pre, List.IsPrefix pre (SimpleSearchEngine.evaluate R r tokens index
        threshold hit_count).results →
      (pre.foldl (sift (max 1 (min 100 hit_count)).toNat) []).length ≤
        (max 1 (min 100 hit_count)).toNat := by
  refine ⟨rfl, fun pre _ => ?_⟩
  rw [foldl_sift_length _ _ [] (by simp)]
  omega

/-- Witness for C9's amended statement: sifting the whole six-candidate
list through the K = 1 selector keeps at most one entry. -/
theorem C9_witness :
    ((SimpleSearchEngine.evaluate countRanker 0 tok3 idx3 1
        1).results.foldl (sift (max 1 (min 100 (1 : ℤ))).toNat) []).length ≤
      (max 1 (min 100 (1 : ℤ))).toNat :=
  (C9_materializes_before_sift countRanker 0 tok3 idx3 1 1).2 _
    (List.prefix_refl _)

/-- C10: `evaluate` never rejects a threshold: a non-positive threshold is
clamped so that N = 1 and evaluation behaves exactly as the pure-OR ratio
1/M, and a threshold whose product with M truncates above M is clamped so
that N = M and evaluation behaves exactly as threshold = 1 (pure AND). -/
theorem C10_threshold_clamping [LinearOrder β] (R : Ranker σ β) (r : σ)
    (tokens : List Term) (index : Term → List Posting) (threshold : ℚ)
    (hit_count : ℤ) (hm : 1 ≤ (firstDedup tokens).length) :
    (threshold ≤ 0 →
      computeN threshold (firstDedup tokens).length = 1 ∧
      SimpleSearchEngine.evaluate R r tokens index threshold hit_count =
        SimpleSearchEngine.evaluate R r tokens index
          (1 / ((firstDedup tokens).length : ℚ)) hit_count) ∧
    ((((firstDedup tokens).length : ℤ) <
        intTrunc (threshold * (firstDedup tokens).length)) →
      computeN threshold (firstDedup tokens).length =
        (firstDedup tokens).length ∧
      SimpleSearchEngine.evaluate R r tokens index threshold hit_count =
        SimpleSearchEngine.evaluate R r tokens index 1 hit_count) := by
  constructor
  · intro ht
    refine ⟨computeN_nonpos ht, ?_⟩
    rw [evaluate_eq_evalCore, evaluate_eq_evalCore, computeN_nonpos ht,
      computeN_inv hm]
  · intro hover
    refine ⟨computeN_over hm hover, ?_⟩
    rw [evaluate_eq_evalCore, evaluate_eq_evalCore, computeN_over hm hover,
      computeN_one hm]

/-- Witness for C10: threshold = -1 on the three-term query is clamped to
N = 1 and behaves exactly as the ratio 1/3. -/
theorem C10_witness :
    computeN (-1) (firstDedup tok3).length = 1 ∧
    SimpleSearchEngine.evaluate countRanker 0 tok3 idx3 (-1) 10 =
      SimpleSearchEngine.evaluate countRanker 0 tok3 idx3
        (1 / ((firstDedup tok3).length : ℚ)) 10 :=
  (C10_threshold_clamping countRanker 0 tok3 idx3 (-1) 10 (by decide)).1
    (by norm_num)
